import Mathlib

/-!
Verification of the single-particle laser-pulse notebook
(src/single_particle_laser.ipynb).

The notebook is a single numpy pipeline:

  xi = np.linspace(4*tau, -4*tau, Nint)
  dxi = xi[2] - xi[1]
  a_ = a_0*np.exp(-(xi - xi0)**2/tau**2)
  a = a_*np.sin(xi)
  px = a
  pz = 0.5*px**2
  gamma = np.sqrt(1 + px**2 + pz**2)
  x = -cumtrapz(px, initial=0)*dxi
  z = -cumtrapz(pz, initial=0)*dxi
  xan = a_*np.cos(xi)
  zdrift = -0.125*np.sqrt(pi/2)*a_0**2*tau*(erf(np.sqrt(2)*(xi - xi0)/tau) - 1)
  zan = zdrift + 0.125*a_**2*np.sin(2.0*xi)

We embed each array as a real-valued function of the grid index (the
notebook fixes a_0, tau, Nint; here they are parameters so the stated
properties quantify over them).  scipy's cumtrapz with initial=0 and the
default unit dx is the running trapezoid sum with a leading zero, so the
element at index k is the sum over i < k of 0.5*(p i + p (i+1)).  The
error function erf is the standard scipy special function,
erf x = 2/sqrt(pi) * integral of exp(-t^2) from 0 to x.
-/

namespace SPL

open Real Filter MeasureTheory intervalIntegral

/-- numpy linspace: sample i of N equally spaced points from start to stop,
endpoints included (step (stop - start)/(N-1)). -/
noncomputable def linspace (start stop : ℝ) (N : ℕ) (i : ℕ) : ℝ :=
  start + (stop - start) * (i : ℝ) / ((N : ℝ) - 1)

/-- The phase grid: xi = np.linspace(4*tau, -4*tau, Nint), as a function of
the sample index. -/
noncomputable def xi (tau : ℝ) (N : ℕ) (i : ℕ) : ℝ :=
  linspace (4 * tau) (-(4 * tau)) N i

/-- The grid as a finite list, for bounds-checked index access (a numpy
array access out of range raises). -/
noncomputable def xiList (tau : ℝ) (N : ℕ) : List ℝ :=
  (List.range N).map (xi tau N)

/-- dxi = xi[2] - xi[1]: the code's step, as the value of the grid formula. -/
noncomputable def dxi (tau : ℝ) (N : ℕ) : ℝ :=
  xi tau N 2 - xi tau N 1

/-- dxi = xi[2] - xi[1] with the index accesses bounds-checked as numpy
performs them: none models the IndexError raised when an index is out of
range. -/
noncomputable def dxiChecked (tau : ℝ) (N : ℕ) : Option ℝ :=
  match (xiList tau N)[2]?, (xiList tau N)[1]? with
  | some u, some v => some (u - v)
  | _, _ => none

/-- Pulse envelope: a_ = a_0*np.exp(-(xi - xi0)**2/tau**2). -/
noncomputable def a_ (a0 tau xi0 : ℝ) (N : ℕ) (i : ℕ) : ℝ :=
  a0 * Real.exp (-(xi tau N i - xi0) ^ 2 / tau ^ 2)

/-- Pulse waveform: a = a_*np.sin(xi). -/
noncomputable def a (a0 tau xi0 : ℝ) (N : ℕ) (i : ℕ) : ℝ :=
  a_ a0 tau xi0 N i * Real.sin (xi tau N i)

/-- Kinematics evaluator, transverse momentum from an arbitrary waveform
array: px = a (identity copy of the field). -/
def pxOf (w : ℕ → ℝ) : ℕ → ℝ := w

/-- Kinematics evaluator, longitudinal momentum: pz = 0.5*px**2. -/
noncomputable def pzOf (p : ℕ → ℝ) (i : ℕ) : ℝ := 0.5 * p i ^ 2

/-- Kinematics evaluator, Lorentz factor from arbitrary momentum arrays:
gamma = np.sqrt(1 + px**2 + pz**2). -/
noncomputable def gammaOf (p q : ℕ → ℝ) (i : ℕ) : ℝ :=
  Real.sqrt (1 + p i ^ 2 + q i ^ 2)

/-- px array of the pipeline. -/
noncomputable def px (a0 tau xi0 : ℝ) (N : ℕ) : ℕ → ℝ :=
  pxOf (a a0 tau xi0 N)

/-- pz array of the pipeline. -/
noncomputable def pz (a0 tau xi0 : ℝ) (N : ℕ) : ℕ → ℝ :=
  pzOf (px a0 tau xi0 N)

/-- gamma array of the pipeline. -/
noncomputable def gamma (a0 tau xi0 : ℝ) (N : ℕ) : ℕ → ℝ :=
  gammaOf (px a0 tau xi0 N) (pz a0 tau xi0 N)

/-- scipy cumtrapz(p, initial=0) with the default unit spacing: element k is
the running trapezoid sum over the first k intervals (element 0 is the
prepended zero, the empty sum). -/
noncomputable def cumtrapz (p : ℕ → ℝ) (k : ℕ) : ℝ :=
  ∑ i in Finset.range k, 0.5 * (p i + p (i + 1))

/-- Numerical transverse trajectory: x = -cumtrapz(px, initial=0)*dxi. -/
noncomputable def x (a0 tau xi0 : ℝ) (N : ℕ) (k : ℕ) : ℝ :=
  -cumtrapz (px a0 tau xi0 N) k * dxi tau N

/-- Numerical longitudinal trajectory: z = -cumtrapz(pz, initial=0)*dxi. -/
noncomputable def z (a0 tau xi0 : ℝ) (N : ℕ) (k : ℕ) : ℝ :=
  -cumtrapz (pz a0 tau xi0 N) k * dxi tau N

/-- The error function of scipy.special:
erf x = 2/sqrt(pi) * integral of exp(-t^2) for t from 0 to x. -/
noncomputable def erf (t : ℝ) : ℝ :=
  2 / Real.sqrt Real.pi * ∫ u in (0:ℝ)..t, Real.exp (-u ^ 2)

/-- Analytic transverse solution: xan = a_*np.cos(xi). -/
noncomputable def xan (a0 tau xi0 : ℝ) (N : ℕ) (i : ℕ) : ℝ :=
  a_ a0 tau xi0 N i * Real.cos (xi tau N i)

/-- The zdrift closed form as a function of the continuous phase:
-0.125*sqrt(pi/2)*a_0**2*tau*(erf(sqrt(2)*(xi - xi0)/tau) - 1). -/
noncomputable def zdriftFun (a0 tau xi0 : ℝ) (ξ : ℝ) : ℝ :=
  -0.125 * Real.sqrt (Real.pi / 2) * a0 ^ 2 * tau *
    (erf (Real.sqrt 2 * (ξ - xi0) / tau) - 1)

/-- zdrift array: the closed form evaluated on the grid. -/
noncomputable def zdrift (a0 tau xi0 : ℝ) (N : ℕ) (i : ℕ) : ℝ :=
  zdriftFun a0 tau xi0 (xi tau N i)

/-- Analytic longitudinal solution: zan = zdrift + 0.125*a_**2*np.sin(2.0*xi). -/
noncomputable def zan (a0 tau xi0 : ℝ) (N : ℕ) (i : ℕ) : ℝ :=
  zdrift a0 tau xi0 N i + 0.125 * a_ a0 tau xi0 N i ^ 2 * Real.sin (2.0 * xi tau N i)

/-- Closed form of a grid sample: xi i = 4*tau - 8*tau*i/(N-1). -/
lemma xi_eq (tau : ℝ) (N : ℕ) (i : ℕ) :
    xi tau N i = 4 * tau - 8 * tau * (i : ℝ) / ((N : ℝ) - 1) := by
  simp only [xi, linspace]
  ring

lemma dxi_eq (tau : ℝ) (N : ℕ) :
    dxi tau N = -(8 * tau) / ((N : ℝ) - 1) := by
  simp only [dxi, xi_eq]
  ring

lemma natCast_sub_one_pos {N : ℕ} (hN : 2 ≤ N) : (0 : ℝ) < (N : ℝ) - 1 := by
  have h : (2 : ℝ) ≤ (N : ℝ) := by exact_mod_cast hN
  linarith

lemma dxi_neg {tau : ℝ} {N : ℕ} (ht : 0 < tau) (hN : 2 ≤ N) :
    dxi tau N < 0 := by
  rw [dxi_eq]
  exact div_neg_of_neg_of_pos (by linarith) (natCast_sub_one_pos hN)

lemma xi_anti {tau : ℝ} {N : ℕ} (ht : 0 < tau) (hN : 2 ≤ N)
    {i j : ℕ} (hij : i ≤ j) : xi tau N j ≤ xi tau N i := by
  rw [xi_eq, xi_eq]
  have hd := natCast_sub_one_pos hN
  have hij' : (i : ℝ) ≤ (j : ℝ) := by exact_mod_cast hij
  have h8 : (0 : ℝ) ≤ 8 * tau := by linarith
  have h := (div_le_div_iff_of_pos_right hd).mpr
    (mul_le_mul_of_nonneg_left hij' h8)
  linarith

lemma xi_strict_anti {tau : ℝ} {N : ℕ} (ht : 0 < tau) (hN : 2 ≤ N)
    {i j : ℕ} (hij : i < j) : xi tau N j < xi tau N i := by
  rw [xi_eq, xi_eq]
  have hd := natCast_sub_one_pos hN
  have hij' : (i : ℝ) < (j : ℝ) := by exact_mod_cast hij
  have h8 : (0 : ℝ) < 8 * tau := by linarith
  have h := (div_lt_div_iff_of_pos_right hd).mpr
    (mul_lt_mul_of_pos_left hij' h8)
  linarith

lemma continuous_exp_neg_sq : Continuous fun t : ℝ => Real.exp (-t ^ 2) :=
  Real.continuous_exp.comp ((continuous_pow 2).neg)

lemma intervalIntegrable_exp_neg_sq (u v : ℝ) :
    IntervalIntegrable (fun t : ℝ => Real.exp (-t ^ 2)) volume u v :=
  continuous_exp_neg_sq.intervalIntegrable u v

lemma erf_monotone : Monotone erf := by
  intro s t hst
  have hadd := integral_add_adjacent_intervals
    (intervalIntegrable_exp_neg_sq 0 s) (intervalIntegrable_exp_neg_sq s t)
  have hnn : 0 ≤ ∫ u in s..t, Real.exp (-u ^ 2) :=
    integral_nonneg hst (fun u _ => (Real.exp_pos _).le)
  have hc : (0 : ℝ) ≤ 2 / Real.sqrt Real.pi := by positivity
  have hle : (∫ u in (0:ℝ)..s, Real.exp (-u ^ 2))
      ≤ ∫ u in (0:ℝ)..t, Real.exp (-u ^ 2) := by linarith
  exact mul_le_mul_of_nonneg_left hle hc

lemma integrableOn_Ioi_exp_neg_sq :
    IntegrableOn (fun t : ℝ => Real.exp (-t ^ 2)) (Set.Ioi 0) volume := by
  have h : Integrable (fun t : ℝ => Real.exp (-1 * t ^ 2)) volume :=
    integrable_exp_neg_mul_sq one_pos
  simpa using h.integrableOn

lemma tendsto_integral_exp_neg_sq :
    Tendsto (fun s : ℝ => ∫ u in (0:ℝ)..s, Real.exp (-u ^ 2)) atTop
      (nhds (Real.sqrt Real.pi / 2)) := by
  have h := MeasureTheory.intervalIntegral_tendsto_integral_Ioi 0
    integrableOn_Ioi_exp_neg_sq tendsto_id
  have heq : (∫ t in Set.Ioi (0:ℝ), Real.exp (-t ^ 2)) = Real.sqrt Real.pi / 2 := by
    have h1 := integral_gaussian_Ioi 1
    simpa using h1
  rw [heq] at h
  exact h

lemma tendsto_erf_atTop : Tendsto erf atTop (nhds 1) := by
  have h := tendsto_integral_exp_neg_sq.const_mul (2 / Real.sqrt Real.pi)
  have hpi : Real.sqrt Real.pi ≠ 0 := ne_of_gt (Real.sqrt_pos.mpr Real.pi_pos)
  have hone : 2 / Real.sqrt Real.pi * (Real.sqrt Real.pi / 2) = 1 := by
    field_simp
  rw [hone] at h
  exact h

lemma erf_neg_eq (s : ℝ) : erf (-s) = -erf s := by
  have h2 : (∫ u in (0:ℝ)..(-s), Real.exp (-(-u) ^ 2))
      = ∫ u in (-(-s))..(-(0:ℝ)), Real.exp (-u ^ 2) :=
    integral_comp_neg fun u : ℝ => Real.exp (-u ^ 2)
  simp only [neg_neg, neg_zero] at h2
  have h3 : (∫ u in (0:ℝ)..(-s), Real.exp (-u ^ 2))
      = ∫ u in s..(0:ℝ), Real.exp (-u ^ 2) := by
    calc (∫ u in (0:ℝ)..(-s), Real.exp (-u ^ 2))
        = ∫ u in (0:ℝ)..(-s), Real.exp (-(-u) ^ 2) := by
          congr 1
          funext u
          rw [neg_sq]
      _ = ∫ u in s..(0:ℝ), Real.exp (-u ^ 2) := h2
  rw [erf, erf, h3, integral_symm 0 s]
  ring

lemma tendsto_erf_atBot : Tendsto erf atBot (nhds (-1)) := by
  have h : Tendsto (fun s : ℝ => erf (-s)) atBot (nhds 1) :=
    tendsto_erf_atTop.comp tendsto_neg_atBot_atTop
  have h2 : Tendsto (fun s : ℝ => -erf (-s)) atBot (nhds (-1)) := h.neg
  have he : (fun s : ℝ => -erf (-s)) = erf := by
    funext s
    rw [erf_neg_eq, neg_neg]
  rwa [he] at h2

lemma tendsto_arg_atTop {tau : ℝ} (xi0 : ℝ) (ht : 0 < tau) :
    Tendsto (fun ξ : ℝ => Real.sqrt 2 * (ξ - xi0) / tau) atTop atTop := by
  have h1 : Tendsto (fun ξ : ℝ => ξ - xi0) atTop atTop := by
    simpa [sub_eq_add_neg] using tendsto_atTop_add_const_right atTop (-xi0) tendsto_id
  have h2 : Tendsto (fun ξ : ℝ => Real.sqrt 2 * (ξ - xi0)) atTop atTop :=
    h1.const_mul_atTop (by positivity)
  exact h2.atTop_div_const ht

lemma tendsto_arg_atBot {tau : ℝ} (xi0 : ℝ) (ht : 0 < tau) :
    Tendsto (fun ξ : ℝ => Real.sqrt 2 * (ξ - xi0) / tau) atBot atBot := by
  have h1 : Tendsto (fun ξ : ℝ => ξ - xi0) atBot atBot := by
    simpa [sub_eq_add_neg] using tendsto_atBot_add_const_right atBot (-xi0) tendsto_id
  have h2 : Tendsto (fun ξ : ℝ => Real.sqrt 2 * (ξ - xi0)) atBot atBot :=
    h1.const_mul_atBot (by positivity)
  exact h2.atBot_div_const ht

lemma tendsto_zdriftFun_atTop (a0 : ℝ) {tau : ℝ} (xi0 : ℝ) (ht : 0 < tau) :
    Tendsto (zdriftFun a0 tau xi0) atTop (nhds 0) := by
  have h1 : Tendsto (fun ξ : ℝ => erf (Real.sqrt 2 * (ξ - xi0) / tau)) atTop (nhds 1) :=
    tendsto_erf_atTop.comp (tendsto_arg_atTop xi0 ht)
  have h2 := (h1.sub_const 1).const_mul
    (-0.125 * Real.sqrt (Real.pi / 2) * a0 ^ 2 * tau)
  have h4 : -0.125 * Real.sqrt (Real.pi / 2) * a0 ^ 2 * tau * (1 - 1) = (0:ℝ) := by
    ring
  rw [h4] at h2
  have hfun : zdriftFun a0 tau xi0 = fun ξ : ℝ =>
      -0.125 * Real.sqrt (Real.pi / 2) * a0 ^ 2 * tau *
        (erf (Real.sqrt 2 * (ξ - xi0) / tau) - 1) := rfl
  rw [hfun]
  exact h2

lemma tendsto_zdriftFun_atBot (a0 : ℝ) {tau : ℝ} (xi0 : ℝ) (ht : 0 < tau) :
    Tendsto (zdriftFun a0 tau xi0) atBot
      (nhds (0.25 * Real.sqrt (Real.pi / 2) * a0 ^ 2 * tau)) := by
  have h1 : Tendsto (fun ξ : ℝ => erf (Real.sqrt 2 * (ξ - xi0) / tau)) atBot (nhds (-1)) :=
    tendsto_erf_atBot.comp (tendsto_arg_atBot xi0 ht)
  have h2 := (h1.sub_const 1).const_mul
    (-0.125 * Real.sqrt (Real.pi / 2) * a0 ^ 2 * tau)
  have h3 : -0.125 * Real.sqrt (Real.pi / 2) * a0 ^ 2 * tau * (-1 - 1)
      = 0.25 * Real.sqrt (Real.pi / 2) * a0 ^ 2 * tau := by ring
  rw [h3] at h2
  have hfun : zdriftFun a0 tau xi0 = fun ξ : ℝ =>
      -0.125 * Real.sqrt (Real.pi / 2) * a0 ^ 2 * tau *
        (erf (Real.sqrt 2 * (ξ - xi0) / tau) - 1) := rfl
  rw [hfun]
  exact h2

lemma zdriftFun_anti (a0 : ℝ) {tau : ℝ} (xi0 : ℝ) (ht : 0 < tau) :
    Antitone (zdriftFun a0 tau xi0) := by
  intro s t hst
  have hnum : Real.sqrt 2 * (s - xi0) ≤ Real.sqrt 2 * (t - xi0) :=
    mul_le_mul_of_nonneg_left (by linarith) (Real.sqrt_nonneg 2)
  have harg : Real.sqrt 2 * (s - xi0) / tau ≤ Real.sqrt 2 * (t - xi0) / tau :=
    (div_le_div_iff_of_pos_right ht).mpr hnum
  have he := erf_monotone harg
  have hK : -0.125 * Real.sqrt (Real.pi / 2) * a0 ^ 2 * tau ≤ 0 := by
    nlinarith [mul_nonneg (mul_nonneg (Real.sqrt_nonneg (Real.pi / 2)) (sq_nonneg a0)) ht.le]
  simp only [zdriftFun]
  exact mul_le_mul_of_nonpos_left (by linarith) hK

lemma neg_sum_mul (g : ℕ → ℝ) (d : ℝ) (k : ℕ) :
    -(∑ i in Finset.range k, 0.5 * (g i + g (i + 1))) * d
      = ∑ i in Finset.range k, -0.5 * (g i + g (i + 1)) * d := by
  rw [neg_mul, Finset.sum_mul, ← Finset.sum_neg_distrib]
  exact Finset.sum_congr rfl fun i _ => by ring

lemma pz_nonneg (a0 tau xi0 : ℝ) (N i : ℕ) : 0 ≤ pz a0 tau xi0 N i := by
  simp only [pz, pzOf]
  positivity

/-- C1: for every peak amplitude and positive pulse duration, the numerical
trajectories x and z are the cumulative trapezoidal integrals of -px and -pz
scaled by the signed step dxi: the element at index 0 is exactly zero, and
the element at index k is the partial sum over i < k of
-0.5*(p i + p (i+1))*dxi. -/
theorem trajectories_cumtrapz_running_sums (a0 tau xi0 : ℝ) (N k : ℕ)
    (ht : 0 < tau) (hk : 1 ≤ k) :
    x a0 tau xi0 N 0 = 0 ∧ z a0 tau xi0 N 0 = 0 ∧
    x a0 tau xi0 N k =
      ∑ i in Finset.range k,
        -0.5 * (px a0 tau xi0 N i + px a0 tau xi0 N (i + 1)) * dxi tau N ∧
    z a0 tau xi0 N k =
      ∑ i in Finset.range k,
        -0.5 * (pz a0 tau xi0 N i + pz a0 tau xi0 N (i + 1)) * dxi tau N := by
  refine ⟨?_, ?_, ?_, ?_⟩
  · simp [x, cumtrapz]
  · simp [z, cumtrapz]
  · exact neg_sum_mul (px a0 tau xi0 N) (dxi tau N) k
  · exact neg_sum_mul (pz a0 tau xi0 N) (dxi tau N) k

/-- Witness for C1 at a0 = 1, tau = 1, xi0 = 0, N = 5, k = 2. -/
theorem trajectories_cumtrapz_running_sums_witness :
    x 1 1 0 5 0 = 0 ∧ z 1 1 0 5 0 = 0 ∧
    x 1 1 0 5 2 =
      ∑ i in Finset.range 2, -0.5 * (px 1 1 0 5 i + px 1 1 0 5 (i + 1)) * dxi 1 5 ∧
    z 1 1 0 5 2 =
      ∑ i in Finset.range 2, -0.5 * (pz 1 1 0 5 i + pz 1 1 0 5 (i + 1)) * dxi 1 5 :=
  trajectories_cumtrapz_running_sums 1 1 0 5 2 one_pos (by decide)

/-- C2: for every parameter set with tau nonzero and every grid index, the
analytic arrays satisfy the stated closed forms: xan is the envelope times
the cosine of the phase, zdrift is the erf-based drift expression, zan adds
the double-angle oscillation, and the envelope is the gaussian. -/
theorem analytic_arrays_closed_forms (a0 tau xi0 : ℝ) (N i : ℕ)
    (ht : tau ≠ 0) :
    xan a0 tau xi0 N i = a_ a0 tau xi0 N i * Real.cos (xi tau N i) ∧
    zdrift a0 tau xi0 N i =
      -0.125 * Real.sqrt (Real.pi / 2) * a0 ^ 2 * tau *
        (erf (Real.sqrt 2 * (xi tau N i - xi0) / tau) - 1) ∧
    zan a0 tau xi0 N i =
      zdrift a0 tau xi0 N i +
        0.125 * a_ a0 tau xi0 N i ^ 2 * Real.sin (2.0 * xi tau N i) ∧
    a_ a0 tau xi0 N i = a0 * Real.exp (-(xi tau N i - xi0) ^ 2 / tau ^ 2) :=
  ⟨rfl, rfl, rfl, rfl⟩

/-- Witness for C2 at a0 = 1, tau = 1, xi0 = 0, N = 5, i = 0. -/
theorem analytic_arrays_closed_forms_witness :
    xan 1 1 0 5 0 = a_ 1 1 0 5 0 * Real.cos (xi 1 5 0) ∧
    zdrift 1 1 0 5 0 =
      -0.125 * Real.sqrt (Real.pi / 2) * 1 ^ 2 * 1 *
        (erf (Real.sqrt 2 * (xi 1 5 0 - 0) / 1) - 1) ∧
    zan 1 1 0 5 0 =
      zdrift 1 1 0 5 0 + 0.125 * a_ 1 1 0 5 0 ^ 2 * Real.sin (2.0 * xi 1 5 0) ∧
    a_ 1 1 0 5 0 = 1 * Real.exp (-(xi 1 5 0 - 0) ^ 2 / 1 ^ 2) :=
  analytic_arrays_closed_forms 1 1 0 5 0 one_ne_zero

/-- C3: for every amplitude and positive duration, the zdrift closed form is
a non-increasing function of the phase (so the array values grow from the
start of the descending grid toward its end), its limit at plus infinity is
zero, its limit at minus infinity is 0.25*sqrt(pi/2)*a0^2*tau, and the net
change from minus infinity to plus infinity is -0.25*sqrt(pi/2)*a0^2*tau. -/
theorem zdrift_antitone_and_total_variation (a0 tau xi0 : ℝ) (N i j : ℕ)
    (ht : 0 < tau) (hij : i ≤ j) (hj : j < N) :
    Antitone (zdriftFun a0 tau xi0) ∧
    zdrift a0 tau xi0 N i ≤ zdrift a0 tau xi0 N j ∧
    Tendsto (zdriftFun a0 tau xi0) atTop (nhds 0) ∧
    Tendsto (zdriftFun a0 tau xi0) atBot
      (nhds (0.25 * Real.sqrt (Real.pi / 2) * a0 ^ 2 * tau)) ∧
    (0 : ℝ) - 0.25 * Real.sqrt (Real.pi / 2) * a0 ^ 2 * tau
      = -(0.25 * Real.sqrt (Real.pi / 2) * a0 ^ 2 * tau) := by
  refine ⟨zdriftFun_anti a0 xi0 ht, ?_, tendsto_zdriftFun_atTop a0 xi0 ht,
    tendsto_zdriftFun_atBot a0 xi0 ht, by ring⟩
  rcases Nat.eq_or_lt_of_le hij with rfl | hlt
  · exact le_rfl
  · have hN : 2 ≤ N := by omega
    exact zdriftFun_anti a0 xi0 ht (xi_anti ht hN hij)

/-- Witness for C3 at a0 = 1, tau = 1, xi0 = 0, N = 5, i = 0, j = 1. -/
theorem zdrift_antitone_and_total_variation_witness :
    Antitone (zdriftFun 1 1 0) ∧
    zdrift 1 1 0 5 0 ≤ zdrift 1 1 0 5 1 ∧
    Tendsto (zdriftFun 1 1 0) atTop (nhds 0) ∧
    Tendsto (zdriftFun 1 1 0) atBot
      (nhds (0.25 * Real.sqrt (Real.pi / 2) * 1 ^ 2 * 1)) ∧
    (0 : ℝ) - 0.25 * Real.sqrt (Real.pi / 2) * 1 ^ 2 * 1
      = -(0.25 * Real.sqrt (Real.pi / 2) * 1 ^ 2 * 1) :=
  zdrift_antitone_and_total_variation 1 1 0 5 0 1 one_pos (by decide) (by decide)

/-- C4: the kinematics evaluator copies the waveform into px and sets
pz = 0.5*px^2 exactly, both for an arbitrary waveform array and for the
pipeline arrays. -/
theorem momenta_pointwise (w : ℕ → ℝ) (a0 tau xi0 : ℝ) (N i : ℕ) :
    pxOf w i = w i ∧
    pzOf (pxOf w) i = 0.5 * pxOf w i ^ 2 ∧
    px a0 tau xi0 N i = a a0 tau xi0 N i ∧
    pz a0 tau xi0 N i = 0.5 * px a0 tau xi0 N i ^ 2 :=
  ⟨rfl, rfl, rfl, rfl⟩

/-- C5: for arbitrary real momentum arrays, gamma is the square root of
1 + px^2 + pz^2, the square-root argument is never negative, and gamma is
at least 1; the pipeline gamma is this evaluator applied to px and pz. -/
theorem gamma_sqrt_total_ge_one (p q : ℕ → ℝ) (a0 tau xi0 : ℝ) (N i : ℕ) :
    gammaOf p q i = Real.sqrt (1 + p i ^ 2 + q i ^ 2) ∧
    0 ≤ 1 + p i ^ 2 + q i ^ 2 ∧
    1 ≤ gammaOf p q i ∧
    gamma a0 tau xi0 N i = gammaOf (px a0 tau xi0 N) (pz a0 tau xi0 N) i := by
  refine ⟨rfl, by positivity, ?_, rfl⟩
  have h1 : (1 : ℝ) ≤ 1 + p i ^ 2 + q i ^ 2 := by nlinarith [sq_nonneg (p i), sq_nonneg (q i)]
  calc (1 : ℝ) = Real.sqrt 1 := Real.sqrt_one.symm
    _ ≤ Real.sqrt (1 + p i ^ 2 + q i ^ 2) := Real.sqrt_le_sqrt h1
    _ = gammaOf p q i := rfl

/-- C6: for positive tau and at least two samples the phase grid starts at
4*tau, ends at -4*tau, is strictly decreasing, and consecutive samples are
separated by the uniform negative spacing -8*tau/(N-1). -/
theorem grid_linspace_descending_uniform (tau : ℝ) (N i j : ℕ)
    (ht : 0 < tau) (hN : 2 ≤ N) (hij : i < j) (hj : j < N) (hi1 : i + 1 < N) :
    xi tau N 0 = 4 * tau ∧
    xi tau N (N - 1) = -(4 * tau) ∧
    xi tau N j < xi tau N i ∧
    xi tau N (i + 1) - xi tau N i = -(8 * tau) / ((N : ℝ) - 1) ∧
    -(8 * tau) / ((N : ℝ) - 1) < 0 := by
  have hd := natCast_sub_one_pos hN
  refine ⟨?_, ?_, xi_strict_anti ht hN hij, ?_, ?_⟩
  · rw [xi_eq]
    simp
  · rw [xi_eq]
    have hcast : ((N - 1 : ℕ) : ℝ) = (N : ℝ) - 1 := by
      have h1 : 1 ≤ N := by omega
      rw [Nat.cast_sub h1, Nat.cast_one]
    rw [hcast]
    field_simp
    ring
  · rw [xi_eq, xi_eq]
    push_cast
    field_simp
    ring
  · exact div_neg_of_neg_of_pos (by linarith) hd

/-- Witness for C6 at tau = 1, N = 5, i = 1, j = 2. -/
theorem grid_linspace_descending_uniform_witness :
    xi 1 5 0 = 4 * 1 ∧
    xi 1 5 (5 - 1) = -(4 * 1) ∧
    xi 1 5 2 < xi 1 5 1 ∧
    xi 1 5 (1 + 1) - xi 1 5 1 = -(8 * 1) / ((5 : ℝ) - 1) ∧
    -(8 * 1) / ((5 : ℝ) - 1) < 0 :=
  grid_linspace_descending_uniform 1 5 1 2 one_pos (by decide) (by decide)
    (by decide) (by decide)

/-- C7: with zero amplitude and any positive duration, the envelope,
waveform, momenta, and analytic arrays vanish identically, and gamma is 1
everywhere. -/
theorem zero_amplitude_all_zero (tau xi0 : ℝ) (N i : ℕ) (ht : 0 < tau) :
    a_ 0 tau xi0 N i = 0 ∧ a 0 tau xi0 N i = 0 ∧
    px 0 tau xi0 N i = 0 ∧ pz 0 tau xi0 N i = 0 ∧
    xan 0 tau xi0 N i = 0 ∧ zdrift 0 tau xi0 N i = 0 ∧
    zan 0 tau xi0 N i = 0 ∧ gamma 0 tau xi0 N i = 1 := by
  have ha_ : a_ 0 tau xi0 N i = 0 := by simp [a_]
  have ha : a 0 tau xi0 N i = 0 := by simp [a, ha_]
  have hpx : px 0 tau xi0 N i = 0 := by simp [px, pxOf, ha]
  have hpz : pz 0 tau xi0 N i = 0 := by simp [pz, pzOf, hpx]
  have hzd : zdrift 0 tau xi0 N i = 0 := by
    simp only [zdriftFun, zdrift]
    ring
  refine ⟨ha_, ha, hpx, hpz, ?_, hzd, ?_, ?_⟩
  · simp [xan, ha_]
  · simp [zan, ha_, hzd]
  · simp only [gamma, gammaOf, hpx, hpz]
    norm_num

/-- Witness for C7 at tau = 1, xi0 = 0, N = 5, i = 0. -/
theorem zero_amplitude_all_zero_witness :
    a_ 0 1 0 5 0 = 0 ∧ a 0 1 0 5 0 = 0 ∧
    px 0 1 0 5 0 = 0 ∧ pz 0 1 0 5 0 = 0 ∧
    xan 0 1 0 5 0 = 0 ∧ zdrift 0 1 0 5 0 = 0 ∧
    zan 0 1 0 5 0 = 0 ∧ gamma 0 1 0 5 0 = 1 :=
  zero_amplitude_all_zero 1 0 5 0 one_pos

lemma xiList_getElem? (tau : ℝ) (N k : ℕ) :
    (xiList tau N)[k]? = if k < N then some (xi tau N k) else none := by
  by_cases h : k < N
  · simp [xiList, List.getElem?_map, List.getElem?_range h, h]
  · have hlen : (xiList tau N).length ≤ k := by
      simpa [xiList] using Nat.le_of_not_lt h
    simp [List.getElem?_eq_none hlen, h]

/-- C9: the step dxi = xi[2] - xi[1] is computed from a bounds-checked index
access that is in range exactly when N is at least 3; under that
precondition and positive tau it equals the uniform spacing -8*tau/(N-1). -/
theorem dxi_defined_iff_three_samples (tau : ℝ) (N : ℕ)
    (h3 : 3 ≤ N) (ht : 0 < tau) :
    (∀ M : ℕ, (dxiChecked tau M).isSome = true ↔ 3 ≤ M) ∧
    dxiChecked tau N = some (-(8 * tau) / ((N : ℝ) - 1)) := by
  have hval : ∀ M : ℕ, 3 ≤ M → dxiChecked tau M = some (xi tau M 2 - xi tau M 1) := by
    intro M hM
    have h2 : (2 : ℕ) < M := by omega
    have h1 : (1 : ℕ) < M := by omega
    simp [dxiChecked, xiList_getElem?, h2, h1]
  constructor
  · intro M
    constructor
    · intro hs
      by_contra hM
      have h2 : ¬ (2 : ℕ) < M := by omega
      simp [dxiChecked, xiList_getElem?, h2] at hs
    · intro hM
      rw [hval M hM]
      rfl
  · rw [hval N h3, ← dxi, dxi_eq]

/-- Witness for C9 at tau = 1, N = 4. -/
theorem dxi_defined_iff_three_samples_witness :
    (∀ M : ℕ, (dxiChecked 1 M).isSome = true ↔ 3 ≤ M) ∧
    dxiChecked 1 4 = some (-(8 * 1) / ((4 : ℝ) - 1)) :=
  dxi_defined_iff_three_samples 1 4 (by decide) one_pos

/-- C10: for positive tau and a grid of at least two samples, the numerical
longitudinal trajectory never decreases from one index to the next: each
trapezoidal increment -0.5*(pz k + pz (k+1))*dxi is non-negative because pz
is non-negative and dxi is negative. -/
theorem z_monotone_nondecreasing (a0 tau xi0 : ℝ) (N k : ℕ)
    (ht : 0 < tau) (hN : 2 ≤ N) :
    z a0 tau xi0 N k ≤ z a0 tau xi0 N (k + 1) := by
  have hstep : z a0 tau xi0 N (k + 1) - z a0 tau xi0 N k
      = -(0.5 * (pz a0 tau xi0 N k + pz a0 tau xi0 N (k + 1))) * dxi tau N := by
    simp only [z, cumtrapz, Finset.sum_range_succ]
    ring
  have hq : 0 ≤ 0.5 * (pz a0 tau xi0 N k + pz a0 tau xi0 N (k + 1)) := by
    have h1 := pz_nonneg a0 tau xi0 N k
    have h2 := pz_nonneg a0 tau xi0 N (k + 1)
    linarith
  have hd : dxi tau N < 0 := dxi_neg ht hN
  nlinarith [mul_nonneg hq (le_of_lt (neg_pos.mpr hd))]

/-- Witness for C10 at a0 = 1, tau = 1, xi0 = 0, N = 5, k = 0. -/
theorem z_monotone_nondecreasing_witness :
    z 1 1 0 5 0 ≤ z 1 1 0 5 (0 + 1) :=
  z_monotone_nondecreasing 1 1 0 5 0 one_pos (by decide)

end SPL
